import Mathlib

/-!
Verification of the combinatorial parameterization and permutation engine of
the littlefs benchmark runner (`runners/bench_runner.h`).

The header under `runners/` declares the engine's interface: the data model
(`bench_define_t`, `struct bench_case`, `struct bench_suite`), the
deterministic PRNG (`bench_prng`), the factorial helper (`bench_factorial`),
the permutation generator (`bench_permutation`), and the table of implicit
defines (`BENCH_IMPLICIT_DEFINES`).  The bodies of the declared functions and
the runner's resolution loop live in a compilation unit that is not part of
the sources at hand, so those parts are modelled from the specification's
contracts (each such definition carries a doc comment saying so); the
implicit-define table and the struct layouts are taken directly from the
header.
-/

namespace BenchRunner

/-- Modelled from the spec: the body of `bench_factorial` (declared in
`bench_runner.h` as `size_t bench_factorial(size_t x)`) is not among the
sources.  The spec's contract is `factorial(0) = 1` and
`factorial(x) = x * factorial(x-1)`; overflow for large `x` is a caller-side
precondition, so the model computes over `Nat`. -/
def bench_factorial : Nat → Nat
  | 0 => 1
  | x + 1 => (x + 1) * bench_factorial x

/-- Modelled from the spec: the body of `bench_permutation` (declared in
`bench_runner.h`) is not among the sources.  One position of Lehmer-code
decoding per loop iteration, per spec §4.2: at each position the radix is
`(remaining - 1)!`, the symbol placed is the element at ordinal
`index / radix` among the remaining symbols (0-based, ascending order), and
the index becomes `index % radix`.  The first argument counts the loop
iterations still to run (the C loop runs once per output position, so it
starts at the symbol count); the ordinal is clamped with `min` only so that
`eraseIdx` always shrinks the remaining list — whenever `index < remaining!`
the clamp is the identity. -/
def lehmerGo : Nat → Nat → List Nat → List Nat
  | 0, _, _ => []
  | _ + 1, _, [] => []
  | fuel + 1, index, x :: xs =>
      let radix := bench_factorial xs.length
      let o := min (index / radix) xs.length
      (x :: xs).getD o 0 :: lehmerGo fuel (index % radix) ((x :: xs).eraseIdx o)

/-- Lehmer-code decoding of `index` against the list `l` of not-yet-placed
symbols in ascending order: one loop iteration per symbol. -/
def lehmerDecode (index : Nat) (l : List Nat) : List Nat :=
  lehmerGo l.length index l

/-- Modelled from the spec: `bench_permutation(i, buffer, size)` fills
`buffer` with the `i`-th permutation of `{0, ..., size-1}`; the model
returns that ordering as a list, decoding `i` over the ascending symbols
`0, ..., size-1`. -/
def bench_permutation (i : Nat) (size : Nat) : List Nat :=
  lehmerDecode i (List.range size)

/-- Modelled from the spec: the body of `bench_prng` (declared in
`bench_runner.h` as `uint32_t bench_prng(uint32_t *state)`) is not among the
sources.  The spec fixes only the shape (§4.4): a pure state-threading step
that advances an explicit 32-bit state and yields a pseudo-random value,
with no implicit process-wide state; the concrete mixing function is left
unspecified, so the model uses an arbitrary deterministic 32-bit update and
returns the `(value, new_state)` pair. -/
def bench_prng (state : Nat) : Nat × Nat :=
  let x := (state * 1103515245 + 12345) % 2 ^ 32
  (x, x)

/-- Iterating `bench_prng` from a seed, collecting the produced values:
the output stream of one run of `k` draws. -/
def bench_prng_stream (seed : Nat) : Nat → List Nat
  | 0 => []
  | k + 1 => (bench_prng seed).1 :: bench_prng_stream (bench_prng seed).2 k

/-- A benchmark define (`bench_define_t` of `bench_runner.h`): a named
tunable with a resolution callback over local indices and a permutation
count.  The C struct's `void *data` context is captured inside `cb`
(spec §9 maps the pair to a closure), and the `intmax_t *define` slot is
represented by the resolved value the engine writes through it. -/
structure bench_define_t where
  name : String
  cb : Nat → Int
  permutations : Nat

/-- A benchmark case (`struct bench_case` of `bench_runner.h`): name,
source path, flags, the ordered define sequence, and the optional
eligibility predicate `if_` (`none` meaning no predicate, hence eligible).
The `run` entry point is an opaque external effect (spec §1) and is not
modelled; the stored precomputed `permutations` total is represented by
`total_permutations` below. -/
structure bench_case where
  name : String
  path : String
  flags : Nat
  defines : List bench_define_t
  if_ : Option Bool

/-- Modelled from the spec: `total_permutations` of a case is precomputed by
generation code not among the sources; per spec §3 it is the product of the
defines' permutation counts (1 for the empty sequence). -/
def total_permutations (ps : List Nat) : Nat :=
  ps.prod

/-- Modelled from the spec: the resolver loop of spec §4.1 (the runner's
compilation unit is not among the sources).  Walking the defines in order,
the local index is `remaining % permutations`, the remaining quotient
becomes `remaining / permutations`, and the resolved value is
`cb local_index`; the result lists each define's `(local_index, value)`
pair in order. -/
def resolve_case : Nat → List bench_define_t → List (Nat × Int)
  | _, [] => []
  | remaining, d :: ds =>
      (remaining % d.permutations, d.cb (remaining % d.permutations)) ::
        resolve_case (remaining / d.permutations) ds

/-- The tuple of local indices produced by resolving `flat_index` against a
define sequence: the first components of `resolve_case`. -/
def resolveLocals (flat_index : Nat) (ds : List bench_define_t) : List Nat :=
  (resolve_case flat_index ds).map Prod.fst

/-- Mixed-radix recomposition: the inverse direction of the resolver's
decomposition, used to prove bijectivity. -/
def encodeLocals : List Nat → List Nat → Nat
  | [], _ => 0
  | _, [] => 0
  | i :: is, p :: ps => i + p * encodeLocals is ps

/-- The quotient left over after the resolver's loop of repeated
`(mod, div)` steps (spec §4.1 postcondition). -/
def remainingAfter : Nat → List Nat → Nat
  | remaining, [] => remaining
  | remaining, p :: ps => remainingAfter (remaining / p) ps

/-- Whether a case is eligible to run: the `if_` predicate's verdict, with a
missing predicate meaning eligible (spec §4.1: the optional `eligible()`
gate is independent of define values and of `flat_index`). -/
def eligible (c : bench_case) : Bool :=
  c.if_.getD true

/-- Modelled from the spec: the traversal contract of spec §4.5 (the
external runner is not among the sources).  For an eligible case the runner
iterates `flat_index` from `0` to `total_permutations - 1`, resolving each
one; an ineligible case is skipped whole.  The result is the list of
resolved configurations, one per executed run. -/
def case_runs (c : bench_case) : List (List (Nat × Int)) :=
  if eligible c then
    (List.range (total_permutations (c.defines.map bench_define_t.permutations))).map
      (fun i => resolve_case i c.defines)
  else
    []

/-- The implicit defines of `BENCH_IMPLICIT_DEFINES` in `bench_runner.h`,
in table order. -/
inductive bench_implicit_define where
  | READ_SIZE | PROG_SIZE | BLOCK_SIZE | BLOCK_COUNT | DISK_SIZE
  | RCACHE_SIZE | PCACHE_SIZE | FBUFFER_SIZE | LOOKAHEAD_SIZE | INLINE_SIZE
  | SHRUB_SIZE | FRAGMENT_SIZE | CRYSTAL_THRESH | BLOCK_CYCLES | ERASE_VALUE
  | ERASE_CYCLES | BADBLOCK_BEHAVIOR | POWERLOSS_BEHAVIOR
  deriving DecidableEq

/-- Modelled from the spec: `lfs_max` comes from littlefs utility headers
that are not among the sources; it is the larger of two values. -/
def lfs_max (a b : Int) : Int :=
  max a b

/-- Modelled from the spec: `LFS_EMUBD_BADBLOCK_PROGERROR` is an enum
constant of `bd/lfs_emubd.h`, which is not among the sources; its numeric
value is immaterial to the claims. -/
def LFS_EMUBD_BADBLOCK_PROGERROR : Int := 0

/-- Modelled from the spec: `LFS_EMUBD_POWERLOSS_NOOP` is an enum constant
of `bd/lfs_emubd.h`, which is not among the sources; its numeric value is
immaterial to the claims. -/
def LFS_EMUBD_POWERLOSS_NOOP : Int := 0

/-- The default-value table of `BENCH_IMPLICIT_DEFINES` from
`bench_runner.h`.  Each define's slot is a global `intmax_t` (modelled by
`Int`), and a derived default reads the current values of the other defines
through the environment `env`, mirroring how the C default expressions read
the global `intmax_t` slots. -/
def BENCH_IMPLICIT_DEFINES (env : bench_implicit_define → Int) :
    bench_implicit_define → Int
  | .READ_SIZE => 1
  | .PROG_SIZE => 1
  | .BLOCK_SIZE => 4096
  | .BLOCK_COUNT => env .DISK_SIZE / env .BLOCK_SIZE
  | .DISK_SIZE => 1024 * 1024
  | .RCACHE_SIZE => lfs_max 16 (env .READ_SIZE)
  | .PCACHE_SIZE => lfs_max 16 (env .PROG_SIZE)
  | .FBUFFER_SIZE => 16
  | .LOOKAHEAD_SIZE => 16
  | .INLINE_SIZE => env .BLOCK_SIZE / 4
  | .SHRUB_SIZE => env .INLINE_SIZE
  | .FRAGMENT_SIZE => env .BLOCK_SIZE / 8
  | .CRYSTAL_THRESH => env .BLOCK_SIZE / 8
  | .BLOCK_CYCLES => -1
  | .ERASE_VALUE => 0xff
  | .ERASE_CYCLES => 0
  | .BADBLOCK_BEHAVIOR => LFS_EMUBD_BADBLOCK_PROGERROR
  | .POWERLOSS_BEHAVIOR => LFS_EMUBD_POWERLOSS_NOOP

/-- A two-valued example define, as in spec §8's mixed-radix test vector
`[A: 2, B: 3]`. -/
def defineA : bench_define_t :=
  ⟨"A", fun i => (i : Int), 2⟩

/-- A three-valued example define, as in spec §8's mixed-radix test vector
`[A: 2, B: 3]`. -/
def defineB : bench_define_t :=
  ⟨"B", fun i => (i : Int), 3⟩

/-- An environment of implicit-define slots holding the table's literal
defaults for the defines that derived defaults read. -/
def default_env : bench_implicit_define → Int
  | .READ_SIZE => 1
  | .BLOCK_SIZE => 4096
  | .DISK_SIZE => 1024 * 1024
  | _ => 0

/-! ### Mixed-radix resolution: helper lemmas -/

theorem resolveLocals_nil (i : Nat) : resolveLocals i [] = [] := rfl

theorem resolveLocals_cons (i : Nat) (d : bench_define_t) (ds : List bench_define_t) :
    resolveLocals i (d :: ds) =
      i % d.permutations :: resolveLocals (i / d.permutations) ds := rfl

/-- Each local index produced by the resolver is below its define's
permutation count, whenever the flat index is in range. -/
theorem resolveLocals_forall_lt :
    ∀ (ds : List bench_define_t), (∀ d ∈ ds, 1 ≤ d.permutations) →
    ∀ i, i < total_permutations (ds.map bench_define_t.permutations) →
    List.Forall₂ (· < ·) (resolveLocals i ds) (ds.map bench_define_t.permutations)
  | [], _, _, _ => List.Forall₂.nil
  | d :: ds, hp, i, hi => by
      have hd : 1 ≤ d.permutations := hp d (List.mem_cons_self d ds)
      have hi' : i / d.permutations <
          total_permutations (ds.map bench_define_t.permutations) := by
        rw [(Nat.div_lt_iff_lt_mul hd :
          (i / d.permutations < total_permutations (ds.map bench_define_t.permutations) ↔ _))]
        calc i < total_permutations ((d :: ds).map bench_define_t.permutations) := hi
          _ = d.permutations * total_permutations (ds.map bench_define_t.permutations) := by
              simp [total_permutations]
          _ = total_permutations (ds.map bench_define_t.permutations) * d.permutations :=
              Nat.mul_comm _ _
      exact (resolveLocals_cons i d ds) ▸
        List.Forall₂.cons (Nat.mod_lt i hd)
          (resolveLocals_forall_lt ds (fun e he => hp e (List.mem_cons_of_mem d he))
            (i / d.permutations) hi')

/-- Recomposing the resolver's local indices gives back the flat index. -/
theorem encode_resolveLocals :
    ∀ (ds : List bench_define_t), (∀ d ∈ ds, 1 ≤ d.permutations) →
    ∀ i, i < total_permutations (ds.map bench_define_t.permutations) →
    encodeLocals (resolveLocals i ds) (ds.map bench_define_t.permutations) = i
  | [], _, i, hi => by
      have : i = 0 := by simpa [total_permutations] using hi
      simp [this, resolveLocals_nil, encodeLocals]
  | d :: ds, hp, i, hi => by
      have hd : 1 ≤ d.permutations := hp d (List.mem_cons_self d ds)
      have hi' : i / d.permutations <
          total_permutations (ds.map bench_define_t.permutations) := by
        rw [(Nat.div_lt_iff_lt_mul hd :
          (i / d.permutations < total_permutations (ds.map bench_define_t.permutations) ↔ _))]
        calc i < total_permutations ((d :: ds).map bench_define_t.permutations) := hi
          _ = d.permutations * total_permutations (ds.map bench_define_t.permutations) := by
              simp [total_permutations]
          _ = total_permutations (ds.map bench_define_t.permutations) * d.permutations :=
              Nat.mul_comm _ _
      have ih := encode_resolveLocals ds (fun e he => hp e (List.mem_cons_of_mem d he))
        (i / d.permutations) hi'
      calc encodeLocals (resolveLocals i (d :: ds))
            ((d :: ds).map bench_define_t.permutations)
          = i % d.permutations + d.permutations *
              encodeLocals (resolveLocals (i / d.permutations) ds)
                (ds.map bench_define_t.permutations) := by
            rw [resolveLocals_cons, List.map_cons]
            rfl
        _ = i % d.permutations + d.permutations * (i / d.permutations) := by rw [ih]
        _ = i := Nat.mod_add_div i d.permutations

/-- Resolving a recomposed tuple of in-range local indices gives back the
tuple. -/
theorem resolveLocals_encode :
    ∀ (ds : List bench_define_t) (is : List Nat),
    List.Forall₂ (· < ·) is (ds.map bench_define_t.permutations) →
    resolveLocals (encodeLocals is (ds.map bench_define_t.permutations)) ds = is
  | [], [], _ => rfl
  | [], _ :: _, hf => absurd hf (by simp)
  | _ :: _, [], hf => absurd hf (by simp)
  | d :: ds, i :: is, hf => by
      rw [List.map_cons] at hf
      obtain ⟨hi, hf'⟩ := List.forall₂_cons.mp hf
      have hd : 0 < d.permutations := Nat.lt_of_le_of_lt (Nat.zero_le i) hi
      have ih := resolveLocals_encode ds is hf'
      have he : encodeLocals (i :: is)
          ((d :: ds).map bench_define_t.permutations) =
          i + d.permutations * encodeLocals is (ds.map bench_define_t.permutations) := by
        rw [List.map_cons]
        rfl
      set e := encodeLocals is (ds.map bench_define_t.permutations) with hedef
      have h1 : (i + d.permutations * e) % d.permutations = i := by
        rw [Nat.add_mul_mod_self_left]
        exact Nat.mod_eq_of_lt hi
      have h2 : (i + d.permutations * e) / d.permutations = e := by
        rw [Nat.add_mul_div_left _ _ hd, Nat.div_eq_of_lt hi, Nat.zero_add]
      rw [he, resolveLocals_cons, h1, h2, ih]

/-- A recomposed tuple of in-range local indices is an in-range flat
index. -/
theorem encodeLocals_lt :
    ∀ (is ps : List Nat), List.Forall₂ (· < ·) is ps →
    encodeLocals is ps < total_permutations ps
  | [], [], _ => by simp [encodeLocals, total_permutations]
  | [], _ :: _, hf => absurd hf (by simp)
  | _ :: _, [], hf => absurd hf (by simp)
  | i :: is, p :: ps, hf => by
      have hi : i < p := (List.forall₂_cons.mp hf).1
      have hf' : List.Forall₂ (· < ·) is ps := (List.forall₂_cons.mp hf).2
      have ih := encodeLocals_lt is ps hf'
      simp only [encodeLocals, total_permutations, List.prod_cons]
      calc i + p * encodeLocals is ps < p + p * encodeLocals is ps := by omega
        _ = p * (encodeLocals is ps + 1) := by ring
        _ ≤ p * ps.prod := Nat.mul_le_mul_left p ih

/-- After dividing a flat index in range by every permutation count in
order, nothing remains. -/
theorem remainingAfter_eq_zero :
    ∀ (ps : List Nat), (∀ p ∈ ps, 1 ≤ p) →
    ∀ i, i < total_permutations ps → remainingAfter i ps = 0
  | [], _, i, hi => by simpa [total_permutations, remainingAfter] using hi
  | p :: ps, hp, i, hi => by
      have hd : 1 ≤ p := hp p (List.mem_cons_self p ps)
      have hi' : i / p < total_permutations ps := by
        rw [(Nat.div_lt_iff_lt_mul hd : (i / p < total_permutations ps ↔ _))]
        calc i < total_permutations (p :: ps) := hi
          _ = p * total_permutations ps := by simp [total_permutations]
          _ = total_permutations ps * p := Nat.mul_comm _ _
      exact remainingAfter_eq_zero ps (fun q hq => hp q (List.mem_cons_of_mem p hq))
        (i / p) hi'

/-! ### Lehmer decoding: helper lemmas -/

theorem bench_factorial_pos : ∀ n : Nat, 0 < bench_factorial n
  | 0 => Nat.one_pos
  | n + 1 => Nat.mul_pos (Nat.succ_pos n) (bench_factorial_pos n)

theorem bench_factorial_succ (n : Nat) :
    bench_factorial (n + 1) = (n + 1) * bench_factorial n := rfl

/-- The modelled factorial agrees with Mathlib's. -/
theorem bench_factorial_eq_factorial : ∀ n : Nat, bench_factorial n = n.factorial
  | 0 => rfl
  | n + 1 => by rw [bench_factorial_succ, Nat.factorial_succ,
      bench_factorial_eq_factorial n]

theorem lehmerGo_cons (fuel index x : Nat) (xs : List Nat) :
    lehmerGo (fuel + 1) index (x :: xs) =
      (x :: xs).getD (min (index / bench_factorial xs.length) xs.length) 0 ::
        lehmerGo fuel (index % bench_factorial xs.length)
          ((x :: xs).eraseIdx (min (index / bench_factorial xs.length) xs.length)) := rfl

/-- Pulling the element at a valid position to the front of the rest is a
permutation of the original list. -/
theorem getD_cons_eraseIdx_perm :
    ∀ (l : List Nat) (o : Nat), o < l.length →
      (l.getD o 0 :: l.eraseIdx o).Perm l
  | [], o, h => absurd h (by simp)
  | x :: xs, 0, _ => by
      simp only [List.getD_cons_zero, List.eraseIdx_cons_zero]
      exact List.Perm.refl _
  | x :: xs, o + 1, h => by
      have ih := getD_cons_eraseIdx_perm xs o (by simpa using h)
      simp only [List.getD_cons_succ, List.eraseIdx_cons_succ]
      exact (List.Perm.swap x (xs.getD o 0) (xs.eraseIdx o)).trans (ih.cons x)

/-- Lehmer decoding permutes its list of remaining symbols, for any index
(the ordinal clamp keeps every pick valid). -/
theorem lehmerGo_perm :
    ∀ (fuel : Nat) (l : List Nat), l.length = fuel →
    ∀ index, (lehmerGo fuel index l).Perm l
  | 0, l, hl, index => by
      have hnil : l = [] := List.length_eq_zero.mp hl
      subst hnil
      exact List.Perm.refl _
  | fuel + 1, [], hl, _ => by simp at hl
  | fuel + 1, x :: xs, hl, index => by
      have hxs : xs.length = fuel := by simpa using hl
      have holt : min (index / bench_factorial xs.length) xs.length <
          (x :: xs).length := by
        simp only [List.length_cons]
        exact Nat.lt_succ_of_le (min_le_right _ _)
      have hlen : ((x :: xs).eraseIdx
          (min (index / bench_factorial xs.length) xs.length)).length = fuel := by
        rw [List.length_eraseIdx, if_pos holt]
        simpa using hxs
      have ih := lehmerGo_perm fuel _ hlen (index % bench_factorial xs.length)
      rw [lehmerGo_cons]
      exact (ih.cons _).trans (getD_cons_eraseIdx_perm (x :: xs) _ holt)

/-- Lehmer decoding is injective on indices below the factorial of the
symbol count, provided the symbols are distinct. -/
theorem lehmerGo_inj :
    ∀ (fuel : Nat) (l : List Nat), l.length = fuel → l.Nodup →
    ∀ i j, i < bench_factorial fuel → j < bench_factorial fuel →
    lehmerGo fuel i l = lehmerGo fuel j l → i = j
  | 0, _, _, _, i, j, hi, hj, _ => by
      have hi1 : i < 1 := hi
      have hj1 : j < 1 := hj
      omega
  | fuel + 1, [], hl, _, _, _, _, _, _ => by simp at hl
  | fuel + 1, x :: xs, hl, hnd, i, j, hi, hj, heq => by
      have hxs : xs.length = fuel := by simpa using hl
      have hrpos : 0 < bench_factorial xs.length := bench_factorial_pos _
      have hoi : i / bench_factorial xs.length < fuel + 1 := by
        rw [Nat.div_lt_iff_lt_mul hrpos]
        calc i < bench_factorial (fuel + 1) := hi
          _ = (fuel + 1) * bench_factorial fuel := bench_factorial_succ fuel
          _ = (fuel + 1) * bench_factorial xs.length := by rw [hxs]
      have hoj : j / bench_factorial xs.length < fuel + 1 := by
        rw [Nat.div_lt_iff_lt_mul hrpos]
        calc j < bench_factorial (fuel + 1) := hj
          _ = (fuel + 1) * bench_factorial fuel := bench_factorial_succ fuel
          _ = (fuel + 1) * bench_factorial xs.length := by rw [hxs]
      have hmi : min (i / bench_factorial xs.length) xs.length =
          i / bench_factorial xs.length :=
        min_eq_left (by omega)
      have hmj : min (j / bench_factorial xs.length) xs.length =
          j / bench_factorial xs.length :=
        min_eq_left (by omega)
      rw [lehmerGo_cons, lehmerGo_cons, hmi, hmj] at heq
      injection heq with hhead htail
      have hbi : i / bench_factorial xs.length < (x :: xs).length := by
        simp only [List.length_cons]
        omega
      have hbj : j / bench_factorial xs.length < (x :: xs).length := by
        simp only [List.length_cons]
        omega
      have hdiv : i / bench_factorial xs.length = j / bench_factorial xs.length := by
        rw [List.getD_eq_getElem (x :: xs) 0 hbi, List.getD_eq_getElem (x :: xs) 0 hbj]
          at hhead
        exact (List.Nodup.getElem_inj_iff hnd).mp hhead
      rw [hdiv] at htail
      have hlen : ((x :: xs).eraseIdx (j / bench_factorial xs.length)).length =
          fuel := by
        rw [List.length_eraseIdx, if_pos hbj]
        simpa using hxs
      have hnd' : ((x :: xs).eraseIdx (j / bench_factorial xs.length)).Nodup :=
        List.Nodup.sublist (List.eraseIdx_sublist _ _) hnd
      have hmod : i % bench_factorial xs.length = j % bench_factorial xs.length :=
        lehmerGo_inj fuel _ hlen hnd' _ _
          (by rw [← hxs]; exact Nat.mod_lt i hrpos)
          (by rw [← hxs]; exact Nat.mod_lt j hrpos)
          htail
      calc i = bench_factorial xs.length * (i / bench_factorial xs.length) +
            i % bench_factorial xs.length := (Nat.div_add_mod i _).symm
        _ = bench_factorial xs.length * (j / bench_factorial xs.length) +
            j % bench_factorial xs.length := by rw [hdiv, hmod]
        _ = j := Nat.div_add_mod j _

/-- Every reordering of the remaining symbols is produced by some index
below the factorial of the symbol count. -/
theorem lehmerGo_surj :
    ∀ (l' l : List Nat), l'.Perm l →
    ∃ i, i < bench_factorial l.length ∧ lehmerGo l.length i l = l'
  | [], l, hp => by
      have hnil : l = [] := (hp.symm).eq_nil
      subst hnil
      exact ⟨0, Nat.one_pos, rfl⟩
  | y :: ys, [], hp => by
      have := hp.length_eq
      simp at this
  | y :: ys, x :: xs, hp => by
      have hy : y ∈ x :: xs := hp.mem_iff.mp (List.mem_cons_self y ys)
      have ho : (x :: xs).indexOf y < (x :: xs).length :=
        List.indexOf_lt_length.mpr hy
      have hget : (x :: xs)[(x :: xs).indexOf y] = y := List.getElem_indexOf ho
      have hgetD : (x :: xs).getD ((x :: xs).indexOf y) 0 = y := by
        rw [List.getD_eq_getElem (x :: xs) 0 ho, hget]
      have hperm1 : (y :: (x :: xs).eraseIdx ((x :: xs).indexOf y)).Perm (x :: xs) := by
        have h := getD_cons_eraseIdx_perm (x :: xs) ((x :: xs).indexOf y) ho
        rwa [hgetD] at h
      have hys : ys.Perm ((x :: xs).eraseIdx ((x :: xs).indexOf y)) :=
        (hp.trans hperm1.symm).cons_inv
      obtain ⟨j, hj, hdec⟩ := lehmerGo_surj ys ((x :: xs).eraseIdx ((x :: xs).indexOf y)) hys
      have hlen : ((x :: xs).eraseIdx ((x :: xs).indexOf y)).length = xs.length := by
        rw [List.length_eraseIdx, if_pos ho]
        simp
      rw [hlen] at hj hdec
      have hrpos : 0 < bench_factorial xs.length := bench_factorial_pos _
      refine ⟨bench_factorial xs.length * (x :: xs).indexOf y + j, ?_, ?_⟩
      · calc bench_factorial xs.length * (x :: xs).indexOf y + j
            < bench_factorial xs.length * (x :: xs).indexOf y +
              bench_factorial xs.length := by omega
          _ = bench_factorial xs.length * ((x :: xs).indexOf y + 1) := by ring
          _ ≤ bench_factorial xs.length * (xs.length + 1) := by
              have hle : (x :: xs).indexOf y + 1 ≤ xs.length + 1 := by
                simp only [List.length_cons] at ho
                omega
              exact Nat.mul_le_mul_left _ hle
          _ = (xs.length + 1) * bench_factorial xs.length := Nat.mul_comm _ _
          _ = bench_factorial (xs.length + 1) := (bench_factorial_succ xs.length).symm
          _ = bench_factorial (x :: xs).length := by simp
      · have hdivj : (bench_factorial xs.length * (x :: xs).indexOf y + j) /
            bench_factorial xs.length = (x :: xs).indexOf y := by
          rw [Nat.mul_add_div hrpos, Nat.div_eq_of_lt hj, Nat.add_zero]
        have hmodj : (bench_factorial xs.length * (x :: xs).indexOf y + j) %
            bench_factorial xs.length = j := by
          rw [Nat.mul_add_mod]
          exact Nat.mod_eq_of_lt hj
        have hmin : min (((bench_factorial xs.length) * (x :: xs).indexOf y + j) /
            bench_factorial xs.length) xs.length = (x :: xs).indexOf y := by
          rw [hdivj]
          refine min_eq_left ?_
          simp only [List.length_cons] at ho
          omega
        show lehmerGo (xs.length + 1) _ (x :: xs) = y :: ys
        rw [lehmerGo_cons, hmin, hmodj, hgetD, hdec]

/-! ### Claim theorems -/

/-- C1: for a case with defines of permutation counts `(p_0, ..., p_{k-1})`,
each `p_j ≥ 1`, the resolver's mixed-radix decomposition is a bijection
between `[0, ∏ p_j)` and the Cartesian product of the local-index ranges:
every in-range flat index yields a tuple of in-range local indices, distinct
flat indices yield distinct tuples, and every tuple of in-range local
indices is reached by exactly one in-range flat index. -/
theorem resolve_case_bijection (ds : List bench_define_t)
    (hp : ∀ d ∈ ds, 1 ≤ d.permutations) :
    (∀ i, i < total_permutations (ds.map bench_define_t.permutations) →
      List.Forall₂ (· < ·) (resolveLocals i ds)
        (ds.map bench_define_t.permutations)) ∧
    (∀ i j, i < total_permutations (ds.map bench_define_t.permutations) →
      j < total_permutations (ds.map bench_define_t.permutations) →
      resolveLocals i ds = resolveLocals j ds → i = j) ∧
    (∀ is, List.Forall₂ (· < ·) is (ds.map bench_define_t.permutations) →
      ∃! i, i < total_permutations (ds.map bench_define_t.permutations) ∧
        resolveLocals i ds = is) := by
  refine ⟨resolveLocals_forall_lt ds hp, ?_, ?_⟩
  · intro i j hi hj heq
    have h1 := encode_resolveLocals ds hp i hi
    have h2 := encode_resolveLocals ds hp j hj
    rw [← h1, ← h2, heq]
  · intro is hf
    refine ⟨encodeLocals is (ds.map bench_define_t.permutations),
      ⟨encodeLocals_lt _ _ hf, resolveLocals_encode ds is hf⟩, ?_⟩
    intro i hi2
    obtain ⟨hi, hres⟩ := hi2
    have h := encode_resolveLocals ds hp i hi
    rw [hres] at h
    exact h.symm

/-- C1 witness: instantiating the bijection at the `[A: 2, B: 3]` example,
flat index 4 yields a tuple of local indices below the respective counts. -/
theorem resolve_case_bijection_witness :
    List.Forall₂ (· < ·) (resolveLocals 4 [defineA, defineB])
      ([defineA, defineB].map bench_define_t.permutations) :=
  (resolve_case_bijection [defineA, defineB]
    (by
      intro d hd
      rcases List.mem_cons.mp hd with rfl | hd2
      · exact Nat.one_le_iff_ne_zero.mpr (by simp [defineA])
      rcases List.mem_cons.mp hd2 with rfl | hd3
      · exact Nat.one_le_iff_ne_zero.mpr (by simp [defineB])
      · simp at hd3)).1 4 (by simp [total_permutations, defineA, defineB])

/-- C2: `bench_permutation` decodes an index via the factorial number
system: `bench_permutation 0 3 = [0,1,2]`, `bench_permutation 5 3 = [2,1,0]`,
across indices `0..5` all six orderings of `{0,1,2}` appear exactly once,
and in general for every symbol count the map is a bijection from
`[0, n!)` onto the orderings of `{0, ..., n-1}`: in-range indices yield
orderings of the `n` symbols, distinct in-range indices yield distinct
orderings, and every ordering is reached. -/
theorem bench_permutation_bijection (n : Nat) :
    bench_permutation 0 3 = [0, 1, 2] ∧
    bench_permutation 5 3 = [2, 1, 0] ∧
    (List.range 6).map (fun i => bench_permutation i 3) =
      [[0, 1, 2], [0, 2, 1], [1, 0, 2], [1, 2, 0], [2, 0, 1], [2, 1, 0]] ∧
    (∀ i, i < bench_factorial n → (bench_permutation i n).Perm (List.range n)) ∧
    (∀ i j, i < bench_factorial n → j < bench_factorial n →
      bench_permutation i n = bench_permutation j n → i = j) ∧
    (∀ l, l.Perm (List.range n) →
      ∃ i, i < bench_factorial n ∧ bench_permutation i n = l) := by
  refine ⟨by decide, by decide, by decide, ?_, ?_, ?_⟩
  · intro i _
    exact lehmerGo_perm (List.range n).length (List.range n) rfl i
  · intro i j hi hj heq
    refine lehmerGo_inj (List.range n).length (List.range n) rfl
      (List.nodup_range n) i j ?_ ?_ heq
    · rw [List.length_range]
      exact hi
    · rw [List.length_range]
      exact hj
  · intro l hl
    obtain ⟨i, hi, hdec⟩ := lehmerGo_surj l (List.range n) hl
    refine ⟨i, ?_, hdec⟩
    rwa [List.length_range] at hi

/-- C2 witness: index 4 of the six permutations of three symbols is an
ordering of `{0, 1, 2}`. -/
theorem bench_permutation_bijection_witness :
    (bench_permutation 4 3).Perm (List.range 3) :=
  (bench_permutation_bijection 3).2.2.2.1 4 (by decide)

/-- C3: the first define in a case's ordered define sequence is the
fastest-varying (least-significant) mixed-radix digit: with defines
`[A: 2, B: 3]`, flat index 4 resolves to local indices `(0, 2)`, flat
index 5 to `(1, 2)`, and flat index 0 to `(0, 0)`. -/
theorem resolveLocals_first_fastest :
    resolveLocals 4 [defineA, defineB] = [0, 2] ∧
    resolveLocals 5 [defineA, defineB] = [1, 2] ∧
    resolveLocals 0 [defineA, defineB] = [0, 0] := by
  refine ⟨?_, ?_, ?_⟩ <;> rfl

/-- C4: the factorial helper satisfies the factorial recurrence:
`bench_factorial 0 = 1`, `bench_factorial 5 = 120`, and
`bench_factorial x = x * bench_factorial (x - 1)` for every `x > 0`
(the model computes over `Nat`, overflow being a caller-side
precondition). -/
theorem bench_factorial_recurrence :
    bench_factorial 0 = 1 ∧ bench_factorial 5 = 120 ∧
    ∀ x, 0 < x → bench_factorial x = x * bench_factorial (x - 1) := by
  refine ⟨rfl, by decide, ?_⟩
  intro x hx
  cases x with
  | zero => omega
  | succ n => rw [Nat.succ_sub_one, bench_factorial_succ]

/-- C4 witness: the recurrence evaluated at `x = 5`. -/
theorem bench_factorial_recurrence_witness :
    bench_factorial 5 = 5 * bench_factorial 4 :=
  bench_factorial_recurrence.2.2 5 (by decide)

/-- C5: the pseudo-random generator is a pure, deterministic function of its
explicit state: from equal states, one step produces identical
`(value, new_state)` pairs, and iterating `k` draws produces identical
value sequences; no implicit process-wide state is involved (the model
threads the state explicitly). -/
theorem bench_prng_deterministic (s t k : Nat) (h : s = t) :
    bench_prng s = bench_prng t ∧
    bench_prng_stream s k = bench_prng_stream t k := by
  subst h
  exact ⟨rfl, rfl⟩

/-- C5 witness: two three-draw runs from seed 42 coincide. -/
theorem bench_prng_deterministic_witness :
    bench_prng 42 = bench_prng 42 ∧
    bench_prng_stream 42 3 = bench_prng_stream 42 3 :=
  bench_prng_deterministic 42 42 3 rfl

/-- C6: for every define sequence with permutation counts all at least 1 and
every flat index below the product of the counts, the quotient remaining
after the resolver's loop of repeated `(mod, div)` steps is 0. -/
theorem remainingAfter_postcondition (ps : List Nat)
    (hp : ∀ p ∈ ps, 1 ≤ p) (i : Nat)
    (hi : i < total_permutations ps) :
    remainingAfter i ps = 0 :=
  remainingAfter_eq_zero ps hp i hi

/-- C6 witness: the postcondition at counts `[2, 3]` and flat index 5. -/
theorem remainingAfter_postcondition_witness :
    remainingAfter 5 [2, 3] = 0 :=
  remainingAfter_postcondition [2, 3] (by decide) 5 (by decide)

/-- C7 counterexample: `13! = 6227020800` does not overflow the standard
64-bit unsigned range, refuting the claim that every `n ≥ 13` makes `n!`
overflow that range. -/
theorem bench_factorial_13_no_overflow :
    bench_factorial 13 < 2 ^ 64 := by decide

/-- C7 amended: `n!` is representable in the standard 64-bit unsigned range
exactly for `n ≤ 20`; for `n ≥ 21` it overflows, so the practical ceiling
for `bench_permutation` with a 64-bit index type is `n ≤ 20` (every
`n ≤ 12` in particular is safe). -/
theorem bench_factorial_64bit_threshold (n : Nat) :
    bench_factorial n < 2 ^ 64 ↔ n ≤ 20 := by
  rw [bench_factorial_eq_factorial]
  constructor
  · intro h
    by_contra hgt
    have h21 : (21 : Nat).factorial ≤ n.factorial := Nat.factorial_le (by omega)
    have hbig : (2 : Nat) ^ 64 ≤ (21 : Nat).factorial := by decide
    omega
  · intro h
    have hle : n.factorial ≤ (20 : Nat).factorial := Nat.factorial_le h
    have hsmall : (20 : Nat).factorial < 2 ^ 64 := by decide
    omega

/-- C8: a case whose eligibility predicate returns false contributes zero
executed runs: its run list is empty, and no in-range flat index is
resolved into it; the gate is a property of the case alone, not of any
flat index. -/
theorem case_if_gating (c : bench_case) (h : eligible c = false) :
    case_runs c = [] ∧
    ∀ i, i < total_permutations (c.defines.map bench_define_t.permutations) →
      resolve_case i c.defines ∉ case_runs c := by
  have hruns : case_runs c = [] := by simp [case_runs, h]
  exact ⟨hruns, fun i _ => by simp [hruns]⟩

/-- C8 witness: a concrete ineligible case with two permutations executes
no runs. -/
theorem case_if_gating_witness :
    case_runs ⟨"skipped", "bench.toml", 0, [defineA], some false⟩ = [] :=
  (case_if_gating ⟨"skipped", "bench.toml", 0, [defineA], some false⟩ rfl).1

/-- C9: with every permutation count at least 1, a case's total permutation
count is at least 1 (in particular nonzero), the empty define sequence has
total 1, and an eligible case with no defines runs exactly once. -/
theorem total_permutations_pos (ps : List Nat) (hp : ∀ p ∈ ps, 1 ≤ p)
    (c : bench_case) (hd : c.defines = []) (he : eligible c = true) :
    1 ≤ total_permutations ps ∧
    total_permutations ([] : List Nat) = 1 ∧
    (case_runs c).length = 1 ∧
    total_permutations ps ≠ 0 := by
  have hpos : 0 < total_permutations ps := by
    have hall : ∀ p ∈ ps, 0 < p := fun p h => hp p h
    simpa [total_permutations] using List.prod_pos hall
  refine ⟨hpos, rfl, ?_, Nat.pos_iff_ne_zero.mp hpos⟩
  simp [case_runs, he, hd, total_permutations]

/-- C9 witness: counts `[2, 3]` and a concrete eligible case with no
defines, which runs exactly once. -/
theorem total_permutations_pos_witness :
    1 ≤ total_permutations [2, 3] ∧
    total_permutations ([] : List Nat) = 1 ∧
    (case_runs ⟨"empty", "bench.toml", 0, [], none⟩).length = 1 ∧
    total_permutations [2, 3] ≠ 0 :=
  total_permutations_pos [2, 3] (by decide)
    ⟨"empty", "bench.toml", 0, [], none⟩ rfl rfl

/-- C10: the implicit define table carries the header's concrete defaults —
`READ_SIZE = 1`, `PROG_SIZE = 1`, `BLOCK_SIZE = 4096`,
`DISK_SIZE = 1024*1024`, `BLOCK_COUNT` derived as `DISK_SIZE / BLOCK_SIZE`
(256 at the defaults), `RCACHE_SIZE = max(16, READ_SIZE)` (16 at the
defaults) — and each slot holds a signed `intmax_t` value, so negative
resolved values are representable: `BLOCK_CYCLES` defaults to `-1`, a
negative value. -/
theorem bench_implicit_defines_defaults (env : bench_implicit_define → Int)
    (hr : env .READ_SIZE = 1) (hb : env .BLOCK_SIZE = 4096)
    (hd : env .DISK_SIZE = 1024 * 1024) :
    BENCH_IMPLICIT_DEFINES env .READ_SIZE = 1 ∧
    BENCH_IMPLICIT_DEFINES env .PROG_SIZE = 1 ∧
    BENCH_IMPLICIT_DEFINES env .BLOCK_SIZE = 4096 ∧
    BENCH_IMPLICIT_DEFINES env .DISK_SIZE = 1024 * 1024 ∧
    BENCH_IMPLICIT_DEFINES env .BLOCK_COUNT = env .DISK_SIZE / env .BLOCK_SIZE ∧
    BENCH_IMPLICIT_DEFINES env .BLOCK_COUNT = 256 ∧
    BENCH_IMPLICIT_DEFINES env .RCACHE_SIZE = max 16 (env .READ_SIZE) ∧
    BENCH_IMPLICIT_DEFINES env .RCACHE_SIZE = 16 ∧
    BENCH_IMPLICIT_DEFINES env .BLOCK_CYCLES = -1 ∧
    BENCH_IMPLICIT_DEFINES env .BLOCK_CYCLES < 0 := by
  refine ⟨rfl, rfl, rfl, rfl, rfl, ?_, rfl, ?_, rfl, ?_⟩
  · show env .DISK_SIZE / env .BLOCK_SIZE = 256
    rw [hd, hb]
    decide
  · show lfs_max 16 (env .READ_SIZE) = 16
    rw [hr]
    decide
  · show (-1 : Int) < 0
    decide

/-- C10 witness: the table evaluated in an environment holding the literal
defaults gives `BLOCK_COUNT = 256`. -/
theorem bench_implicit_defines_defaults_witness :
    BENCH_IMPLICIT_DEFINES default_env .BLOCK_COUNT = 256 :=
  (bench_implicit_defines_defaults default_env rfl rfl rfl).2.2.2.2.2.1

end BenchRunner
